import Mathlib

/-!
Shallow embedding of `src/triton_dejavu/autotuner.py` (triton-dejavu).
We model the decision engine: configuration-space generation
(`ConfigSpace.generate_config_list`), cache-key derivation, per-candidate
benchmarking with its failure policy (`Autotuner._bench`), winner selection
(`builtins.min(timings, key=timings.get)`), the built-in reset/restore hook
pair, and the dispatch entry point (`Autotuner.run`).

Modelling conventions:
- the embedding fixes `triton_major_version >= 3` (the branch taken with any
  current triton 3.x install); the `< 3` branches of the source are not
  modelled;
- python floats that can be `float("inf")` become `PFloat` (a rational or
  the infinity sentinel); benchmark results become `Meas` (a scalar for the
  cuda-graph mode of `do_bench_cudagraph`, a quantile list for `do_bench`);
- runtime argument values are integers (`Val := Int`); a kernel argument is
  a value plus an optional dtype string (`hasattr(arg, "dtype")`);
- the external collaborators (the kernel `fn.run`, `do_bench`, and
  `prune_configs`, whose behaviour is given by externally supplied
  callables) are parameters of the model, collected in `KernelModel`;
- exceptions become explicit error values (`BErr` for what `do_bench` can
  raise, `RunErr` for what `Autotuner.run` can raise).
-/

/-- Runtime scalar values of kernel arguments and of tunable parameters. -/
abbrev Val := Int

/-- A kernel argument: its current contents and its optional element type
(`str(arg.dtype)` is appended to the cache key when the dtype exists). -/
structure Arg where
  value : Val
  dtype : Option String
deriving DecidableEq

/-- A python float that may be `float("inf")` (the failure sentinel). -/
inductive PFloat where
  | val : ℚ → PFloat
  | inf : PFloat
deriving DecidableEq

/-- `<` on python floats (no NaN in the modelled fragment). -/
def pfLt : PFloat → PFloat → Bool
  | .val a, .val b => decide (a < b)
  | .val _, .inf => true
  | .inf, _ => false

/-- A benchmark measurement: `do_bench_cudagraph` returns a scalar,
`do_bench` with quantiles returns a list of three floats. -/
inductive Meas where
  | scalar : PFloat → Meas
  | quart : List PFloat → Meas
deriving DecidableEq

/-- Python `<` on lists: first differing element decides, a strict prefix is
smaller. -/
def listLt : List PFloat → List PFloat → Bool
  | [], [] => false
  | [], _ :: _ => true
  | _ :: _, [] => false
  | a :: as, b :: bs => if a = b then listLt as bs else pfLt a b

/-- Python `<` on measurements. Comparing a scalar with a list raises
`TypeError` in python; within one engine the mode is fixed so all
measurements share a shape, and the model returns `false` for the mixed
case. -/
def measLt : Meas → Meas → Bool
  | .scalar a, .scalar b => pfLt a b
  | .quart a, .quart b => listLt a b
  | _, _ => false

/-- Whether two measurements have the same shape (both scalars or both
quantile lists), i.e. are comparable in python. -/
def sameShape : Meas → Meas → Bool
  | .scalar _, .scalar _ => true
  | .quart _, .quart _ => true
  | _, _ => false

/-- The failure sentinel of `Autotuner._bench`:
`float("inf") if self.use_cuda_graph else [float("inf")] * 3`. -/
def sentinel (use_cuda_graph : Bool) : Meas :=
  if use_cuda_graph then .scalar .inf
  else .quart [.inf, .inf, .inf]

/-- A concrete kernel configuration (`triton.Config` as used by the source,
`triton_major_version >= 3`): tunable kwargs, launch parameters, and an
optional per-config pre-hook (modelled as a mutation of the argument
list, standing for `config.pre_hook(full_nargs)`). -/
structure Config where
  kwargs : List (String × Val)
  num_warps : Val
  num_ctas : Val
  num_stages : Val
  pre_hook : Option (List Arg → List Arg)

/-- itertools.product of a list of lists: the rightmost factor varies
fastest, exactly like `itertools.product(*vs)`. -/
def product : List (List Val) → List (List Val)
  | [] => [[]]
  | l :: ls => l.flatMap (fun x => (product ls).map (x :: ·))

/-- itertools.product of three lists, as used for
`itertools.product(self.num_warps, self.num_ctas, self.num_stages)`. -/
def product3 (ws cs ss : List Val) : List (Val × Val × Val) :=
  ws.flatMap (fun w => cs.flatMap (fun c => ss.map (fun s => (w, c, s))))

/-- itertools.product of two lists (`itertools.product(kwarg_lists,
config_product)`). -/
def pairProd {α β : Type} (xs : List α) (ys : List β) : List (α × β) :=
  xs.flatMap (fun x => ys.map (fun y => (x, y)))

/-- The condition-acceptance loop of `generate_config_list`:
`append = True; for condition in kwarg_conditions: if not condition(kwarg):
append = False` (a global AND computed without short-circuit). -/
def acceptConditions (conds : List (List (String × Val) → Bool))
    (kwarg : List (String × Val)) : Bool :=
  conds.foldl (fun append cond => if !(cond kwarg) then false else append) true

/-- `triton_dejavu.ConfigSpace`: per-parameter value lists, launch-parameter
value lists, an optional pre-hook copied into every generated config, and
the rejection predicates. The `num_ctas` capability adjustment happens in
`__init__` before these fields are stored; the fields here are the stored
ones. -/
structure ConfigSpace where
  kwargs : List (String × List Val)
  num_warps : List Val
  num_ctas : List Val
  num_stages : List Val
  pre_hook : Option (List Arg → List Arg)
  kwarg_conditions : List (List (String × Val) → Bool)

/-- `ConfigSpace.generate_config_list` (triton >= 3 branch): cross product
of the kwarg value lists, rejection filtering, cross product with the
launch-parameter product, one `Config` per surviving pair. -/
def ConfigSpace.generate_config_list (S : ConfigSpace) : List Config :=
  let ks := S.kwargs.map (fun p => p.1)
  let vs := S.kwargs.map (fun p => p.2)
  let vs_product := product vs
  let kwarg_lists_complete := vs_product.map (fun comb => ks.zip comb)
  let kwarg_lists := kwarg_lists_complete.filter (acceptConditions S.kwarg_conditions)
  let config_product := product3 S.num_warps S.num_ctas S.num_stages
  let all_product := pairProd kwarg_lists config_product
  all_product.map (fun cc =>
    { kwargs := cc.1
      num_warps := cc.2.1
      num_ctas := cc.2.2.1
      num_stages := cc.2.2.2
      pre_hook := S.pre_hook })

/-- One element of a cache key: either a runtime value of a key argument
or a string-rendered dtype (the python key tuple is heterogeneous). -/
inductive KeyElem where
  | v : Val → KeyElem
  | s : String → KeyElem
deriving DecidableEq

/-- The cache key: `key = tuple(key)` in `Autotuner.run`. -/
abbrev CacheKey := List KeyElem

/-- Assoc-list lookup by key, modelling python dict lookup on the
insertion-ordered `self.cache` (keys are unique in a dict, so the first
match is the entry). -/
def cacheLookup : List (CacheKey × Config) → CacheKey → Option Config
  | [], _ => none
  | (k, c) :: rest, key => if k = key then some c else cacheLookup rest key

/-- Lookup of a name in the call kwargs (python dict access by string). -/
def kwLookup : List (String × Arg) → String → Option Arg
  | [], _ => none
  | (n, a) :: rest, name => if n = name then some a else kwLookup rest name

/-- The `_args` list of `Autotuner.run`:
`all_args = {**self.nargs, **kwargs}` followed by
`_args = [all_args[name] for name in self.arg_names if name in all_args]`.
`self.nargs = dict(zip(self.arg_names, args))` binds the positional args to
the leading argument names; kwargs override by name; a name is skipped when
it is supplied neither positionally nor by keyword (e.g. a tunable
meta-parameter that only a `Config` provides). `i` is the position of the
current name in `arg_names`. -/
def underscoreArgsAux (args : List Arg) (kwargs : List (String × Arg)) :
    List String → Nat → List Arg
  | [], _ => []
  | name :: rest, i =>
    match kwLookup kwargs name with
    | some a => a :: underscoreArgsAux args kwargs rest (i + 1)
    | none =>
      match args.get? i with
      | some a => a :: underscoreArgsAux args kwargs rest (i + 1)
      | none => underscoreArgsAux args kwargs rest (i + 1)

/-- The `_args` list of `Autotuner.run` (see `underscoreArgsAux`). -/
def underscore_args (arg_names : List String) (args : List Arg)
    (kwargs : List (String × Arg)) : List Arg :=
  underscoreArgsAux args kwargs arg_names 0

/-- `[_args[i] for i in key_idx]`, propagating the `IndexError` that python
indexing raises when some `i` is out of range of `_args`. -/
def getAll (uargs : List Arg) : List Nat → Option (List Arg)
  | [] => some []
  | i :: rest =>
    match uargs.get? i with
    | none => none
    | some a => (getAll uargs rest).map (a :: ·)

/-- Cache-key derivation of `Autotuner.run`:
`key = [_args[i] for i in self.key_idx]`, then
`for arg in _args: if hasattr(arg, "dtype"): key.append(str(arg.dtype))`,
then `key = tuple(key)`. `none` models the `IndexError` of `_args[i]`. -/
def derive_key (key_idx : List Nat) (uargs : List Arg) : Option CacheKey :=
  (getAll uargs key_idx).map (fun kas =>
    kas.map (fun a => KeyElem.v a.value) ++
      uargs.filterMap (fun a => a.dtype.map KeyElem.s))

/-- `args[i].zero_()` for every `i` in `reset_idx` (the loop of the built-in
`_pre_hook`). Zeroing mutates the tensor contents; the dtype is unchanged.
An out-of-range index (which would raise in python) leaves the list
unchanged; the theorems below keep indices in range. -/
def zero_at (idxs : List Nat) (args : List Arg) : List Arg :=
  idxs.foldl (fun as i =>
    match as.get? i with
    | some a => as.set i { value := 0, dtype := a.dtype }
    | none => as) args

/-- The engine's pre-hook `self.pre_hook(args, reset_only)`. When neither
`reset_to_zero` nor `restore_value` is registered it is the no-op lambda;
otherwise it is the built-in `_pre_hook`: zero the reset indices, and
unless `reset_only`, snapshot `restore_copies = [args[i].clone() for i in
self.restore_idx]` (taken after the zeroing). Returns the mutated args and
the new `restore_copies`. Custom pre-hooks are outside the modelled
fragment. -/
def engine_pre_hook (reset_idx restore_idx : List Nat) (reset_only : Bool)
    (args copies : List Arg) : List Arg × List Arg :=
  if reset_idx.isEmpty && restore_idx.isEmpty then (args, copies)
  else
    let args1 := zero_at reset_idx args
    if reset_only then (args1, copies)
    else (args1, restore_idx.filterMap (fun i => args1.get? i))

/-- One `args[j].copy_(saved)` write of the built-in post-hook: the saved
contents are written into the destination buffer (`copy_` keeps the
destination's dtype); an out-of-range destination (an `IndexError` in
python) leaves the list unchanged. -/
def copy_step (as : List Arg) (p : Nat × Arg) : List Arg :=
  match as.get? p.1 with
  | some a => as.set p.1 { value := p.2.value, dtype := a.dtype }
  | none => as

/-- The engine's post-hook `self.post_hook(args)`. With no `restore_value`
registered it is the no-op lambda; otherwise the built-in `_post_hook`:
`for i, j in enumerate(self.restore_idx): args[j].copy_(self.restore_copies[i])`
followed by `self.restore_copies = []`. -/
def engine_post_hook (restore_idx : List Nat) (args copies : List Arg) :
    List Arg × List Arg :=
  if restore_idx.isEmpty then (args, copies)
  else ((restore_idx.zip copies).foldl copy_step args, [])

/-- Exception classes that `do_bench`/the kernel can raise inside
`Autotuner._bench`: the three caught classes and a catch-all for every
other exception class (which propagates). -/
inductive BErr where
  | outOfResources
  | compileTimeAssertionFailure
  | assertionError
  | other : String → BErr
deriving DecidableEq

/-- Errors that `Autotuner.run` can raise. -/
inductive RunErr where
  | conflict            -- ValueError: conflicting meta-parameters (in _bench)
  | benchError : String → RunErr  -- an uncaught exception propagating from _bench
  | emptyMin            -- ValueError: builtins.min over an empty timings dict
  | allFailed           -- RuntimeError: all autotune examples failed
  | indexError          -- IndexError: self.configs[0] with an empty config list
  | keyIndexError       -- IndexError: _args[i] out of range in key derivation
deriving DecidableEq

/-- The autotuning engine (the fields of `Autotuner` that `run` reads).
`key_idx = [arg_names.index(k) for k in key]`, `reset_idx` and
`restore_idx` likewise hold positions of the `reset_to_zero` and
`restore_value` argument names. -/
structure Autotuner where
  arg_names : List String
  configs : List Config
  key_idx : List Nat
  reset_idx : List Nat
  restore_idx : List Nat
  use_cuda_graph : Bool
  cache : List (CacheKey × Config)

/-- The external collaborators of one dispatch: the kernel's mutation of the
argument buffers (`self.fn.run(*args, **current)`), the measurement outcome
of `do_bench`/`do_bench_cudagraph` per config (a timing, or the exception
class it raises), how many times the benchmark harness invokes
`kernel_call`, and `self.prune_configs(kwargs)` (whose behaviour is fixed by
the externally supplied `early_config_prune`/`perf_model` callables). -/
structure KernelModel where
  kern : Config → List Arg → List Arg
  outcome : Config → Except BErr Meas
  nTrials : Nat
  pruneFn : List Config → List Config

/-- The decision core of `Autotuner._bench` for one candidate: first the
conflict check `meta.keys() & config.kwargs.keys()` (raising `ValueError`
before any benchmarking of this candidate), then the `try/except` around
`do_bench`: `OutOfResources`, `CompileTimeAssertionFailure` and
`AssertionError` become the failure sentinel, any other exception class
propagates. -/
def bench_config (use_cuda_graph : Bool) (metaKeys : List String)
    (config : Config) (outcome : Except BErr Meas) : Except RunErr Meas :=
  if config.kwargs.any (fun kv => metaKeys.contains kv.1) then
    .error .conflict
  else
    match outcome with
    | .ok m => .ok m
    | .error .outOfResources => .ok (sentinel use_cuda_graph)
    | .error .compileTimeAssertionFailure => .ok (sentinel use_cuda_graph)
    | .error .assertionError => .ok (sentinel use_cuda_graph)
    | .error (.other s) => .error (.benchError s)

/-- One trial execution, the `kernel_call` closure of `_bench`:
`config.pre_hook(full_nargs)` (if any), `self.pre_hook(args)`,
`self.fn.run(*args, **current)`, `self.post_hook(args)`. State is the
argument list plus the engine's `restore_copies`. -/
def kernel_call (A : Autotuner) (M : KernelModel) (config : Config)
    (args copies : List Arg) : List Arg × List Arg :=
  let args0 := match config.pre_hook with
    | some h => h args
    | none => args
  let p1 := engine_pre_hook A.reset_idx A.restore_idx false args0 copies
  let args2 := M.kern config p1.1
  engine_post_hook A.restore_idx args2 p1.2

/-- The repeated trial executions that `do_bench`/`do_bench_cudagraph`
performs for one candidate (warmup plus measured repetitions). -/
def bench_trials (A : Autotuner) (M : KernelModel) (config : Config)
    (args copies : List Arg) : List Arg × List Arg :=
  (List.range M.nTrials).foldl (fun p _ => kernel_call A M config p.1 p.2)
    (args, copies)

/-- The state accumulated by the timings dict comprehension
`{config: self._bench(*args, config=config, **kwargs) for config in
pruned_configs}`: the dict entries in insertion order, the candidates whose
benchmark was actually entered (the kernel was invoked for them), the
argument/copies state, and the first raised error, if any. -/
structure BenchSt where
  timings : List (Config × Meas)
  benched : List Config
  args : List Arg
  copies : List Arg
  err : Option RunErr

/-- Sequential evaluation of the timings dict comprehension. A conflict in a
candidate raises before that candidate is benchmarked; an uncaught
exception class raises out of its benchmark; a caught failure records the
sentinel. For a candidate whose `do_bench` raises a caught class the model
still advances the argument state through the full trial loop; the theorems
that speak about argument state assume candidates that succeed. -/
def bench_all (A : Autotuner) (M : KernelModel) (metaKeys : List String) :
    List Config → List Arg → List Arg → BenchSt
  | [], args, copies => ⟨[], [], args, copies, none⟩
  | c :: rest, args, copies =>
    match bench_config A.use_cuda_graph metaKeys c (M.outcome c) with
    | .error .conflict => ⟨[], [], args, copies, some .conflict⟩
    | .error e => ⟨[], [c], args, copies, some e⟩
    | .ok m =>
      let p := bench_trials A M c args copies
      let st := bench_all A M metaKeys rest p.1 p.2
      ⟨(c, m) :: st.timings, c :: st.benched, st.args, st.copies, st.err⟩

/-- The fold of `builtins.min(timings, key=timings.get)`: python's `min`
keeps the current best and replaces it only when a later element is
strictly smaller, so the first minimum (in dict insertion order) wins. -/
def dictMinAux (b : Config × Meas) : List (Config × Meas) → Config × Meas
  | [] => b
  | p :: rest => dictMinAux (if measLt p.2 b.2 then p else b) rest

/-- `builtins.min(timings, key=timings.get)` over the insertion-ordered
timings dict, fused with the subsequent `timings[self.cache[key]]` lookup:
returns the winning config together with its measurement. `none` models the
`ValueError` python's `min` raises on an empty dict. -/
def dictMin : List (Config × Meas) → Option (Config × Meas)
  | [] => none
  | p :: rest => some (dictMinAux p rest)

/-- The all-failed test of `Autotuner.run`:
`(self.use_cuda_graph and self._timings[key] == float("inf")) or
(not self.use_cuda_graph and self._timings[key][0] == float("inf"))`. -/
def timingIsInf (use_cuda_graph : Bool) : Meas → Bool
  | .scalar x => use_cuda_graph && (x = PFloat.inf)
  | .quart l => !use_cuda_graph && (l.head? = some PFloat.inf)

/-- `config.pre_hook(full_nargs)` immediately before the production
dispatch `self.fn.run(...)` at the end of `Autotuner.run`. -/
def dispatch_args (config : Config) (args : List Arg) : List Arg :=
  match config.pre_hook with
  | some h => h args
  | none => args

/-- The result of one `Autotuner.run` call: the config the production
dispatch uses (or the raised error), the cache afterwards, the argument
state immediately before the production `self.fn.run`, the candidates that
were benchmarked during this call, and whether
`global_dejavu_storage.add_autotuner_cache` (the external Store write) was
invoked. -/
structure RunResult where
  outcome : Except RunErr Config
  cache : List (CacheKey × Config)
  argsBeforeDispatch : List Arg
  benched : List Config
  storeSaved : Bool

/-- The cache-miss path of `Autotuner.run` (lines 296-315 of the source):
prune, benchmark every pruned candidate, `self.cache[key] =
builtins.min(timings, key=timings.get)` (note: the cache is written before
the all-failed check), raise `RuntimeError` when the winner's timing is the
sentinel, otherwise `self.pre_hook(args, reset_only=True)` and fall through
to the store write and the production dispatch. -/
def run_miss (A : Autotuner) (M : KernelModel) (key : CacheKey)
    (args : List Arg) (kwargs : List (String × Arg)) : RunResult :=
  let pruned := M.pruneFn A.configs
  let st := bench_all A M (kwargs.map (fun p => p.1)) pruned args []
  match st.err with
  | some e => ⟨.error e, A.cache, st.args, st.benched, false⟩
  | none =>
    match dictMin st.timings with
    | none => ⟨.error .emptyMin, A.cache, st.args, st.benched, false⟩
    | some wp =>
      let cache2 := A.cache ++ [(key, wp.1)]
      if timingIsInf A.use_cuda_graph wp.2 then
        ⟨.error .allFailed, cache2, st.args, st.benched, false⟩
      else
        ⟨.ok wp.1, cache2,
         dispatch_args wp.1
           (engine_pre_hook A.reset_idx A.restore_idx true st.args st.copies).1,
         st.benched, true⟩

/-- `Autotuner.run` (triton >= 3 branch). With more than one config: derive
the cache key; on a hit dispatch with the stored config (no benchmarking,
no store write); on a miss run `run_miss`. With at most one config: the
fast path `config = self.configs[0]`, which raises `IndexError` when the
config list is empty. -/
def Autotuner.run (A : Autotuner) (M : KernelModel) (args : List Arg)
    (kwargs : List (String × Arg)) : RunResult :=
  if A.configs.length > 1 then
    match derive_key A.key_idx (underscore_args A.arg_names args kwargs) with
    | none => ⟨.error .keyIndexError, A.cache, args, [], false⟩
    | some key =>
      match cacheLookup A.cache key with
      | some config => ⟨.ok config, A.cache, dispatch_args config args, [], false⟩
      | none => run_miss A M key args kwargs
  else
    match A.configs.get? 0 with
    | some config => ⟨.ok config, A.cache, dispatch_args config args, [], false⟩
    | none => ⟨.error .indexError, A.cache, args, [], false⟩

/-! Theorems. First: order properties of the python comparisons backing
`builtins.min(timings, key=timings.get)`. -/

theorem pfLt_irrefl (a : PFloat) : pfLt a a = false := by
  cases a <;> simp [pfLt]

theorem pfLt_trans {a b c : PFloat} (h1 : pfLt a b = true)
    (h2 : pfLt b c = true) : pfLt a c = true := by
  cases a <;> cases b <;> cases c <;> simp_all [pfLt]
  exact lt_trans h1 h2

theorem pfLt_asymm {a b : PFloat} (h : pfLt a b = true) : pfLt b a = false := by
  cases a <;> cases b <;> simp_all [pfLt]
  exact le_of_lt h

theorem pfLt_conn {a b : PFloat} (h1 : pfLt a b = false)
    (h2 : pfLt b a = false) : a = b := by
  cases a <;> cases b <;> simp_all [pfLt]
  exact le_antisymm h2 h1

theorem listLt_irrefl (l : List PFloat) : listLt l l = false := by
  induction l with
  | nil => rfl
  | cons a as ih => simp [listLt, ih]

theorem listLt_trans : ∀ (a b c : List PFloat), listLt a b = true →
    listLt b c = true → listLt a c = true
  | [], [], _, h1, _ => by simp [listLt] at h1
  | [], _ :: _, [], _, h2 => by simp [listLt] at h2
  | [], _ :: _, _ :: _, _, _ => rfl
  | _ :: _, [], _, h1, _ => by simp [listLt] at h1
  | _ :: _, _ :: _, [], _, h2 => by simp [listLt] at h2
  | x :: xs, y :: ys, z :: zs, h1, h2 => by
    simp only [listLt] at h1 h2 ⊢
    by_cases hxy : x = y
    · subst hxy
      rw [if_pos rfl] at h1
      by_cases hxz : x = z
      · subst hxz
        rw [if_pos rfl] at h2 ⊢
        exact listLt_trans xs ys zs h1 h2
      · rw [if_neg hxz] at h2 ⊢
        exact h2
    · rw [if_neg hxy] at h1
      by_cases hyz : y = z
      · subst hyz
        rw [if_neg hxy]
        exact h1
      · rw [if_neg hyz] at h2
        by_cases hxz : x = z
        · subst hxz
          have := pfLt_asymm h1
          rw [this] at h2
          exact absurd h2 (by simp)
        · rw [if_neg hxz]
          exact pfLt_trans h1 h2

theorem listLt_asymm : ∀ (a b : List PFloat), listLt a b = true →
    listLt b a = false
  | [], [], h => by simp [listLt] at h
  | [], _ :: _, _ => rfl
  | _ :: _, [], h => by simp [listLt] at h
  | x :: xs, y :: ys, h => by
    simp only [listLt] at h ⊢
    by_cases hxy : x = y
    · subst hxy
      rw [if_pos rfl] at h ⊢
      exact listLt_asymm xs ys h
    · rw [if_neg hxy] at h
      rw [if_neg (fun hyx => hxy hyx.symm)]
      exact pfLt_asymm h

theorem listLt_conn : ∀ (a b : List PFloat), listLt a b = false →
    listLt b a = false → a = b
  | [], [], _, _ => rfl
  | [], _ :: _, h1, _ => by simp [listLt] at h1
  | _ :: _, [], _, h2 => by simp [listLt] at h2
  | x :: xs, y :: ys, h1, h2 => by
    simp only [listLt] at h1 h2
    by_cases hxy : x = y
    · subst hxy
      rw [if_pos rfl] at h1 h2
      rw [listLt_conn xs ys h1 h2]
    · rw [if_neg hxy] at h1
      rw [if_neg (fun hyx => hxy hyx.symm)] at h2
      exact absurd (pfLt_conn h1 h2) hxy

theorem measLt_irrefl (m : Meas) : measLt m m = false := by
  cases m with
  | scalar a => exact pfLt_irrefl a
  | quart l => exact listLt_irrefl l

theorem measLt_trans {a b c : Meas} (h1 : measLt a b = true)
    (h2 : measLt b c = true) : measLt a c = true := by
  cases a <;> cases b <;> cases c <;> simp_all [measLt]
  · exact pfLt_trans h1 h2
  · exact listLt_trans _ _ _ h1 h2

theorem measLt_asymm {a b : Meas} (h : measLt a b = true) :
    measLt b a = false := by
  cases a <;> cases b <;> simp_all [measLt]
  · exact pfLt_asymm h
  · exact listLt_asymm _ _ h

theorem measLt_conn {a b : Meas} (hs : sameShape a b = true)
    (h1 : measLt a b = false) (h2 : measLt b a = false) : a = b := by
  cases a <;> cases b <;> simp_all [measLt, sameShape]
  · exact pfLt_conn h1 h2
  · exact listLt_conn _ _ h1 h2

/-- Python's `min` with a key function returns the first element whose key
is minimal: the fold keeps the current best unless a later key is strictly
smaller. Characterisation of `dictMinAux` under shape-uniform measurements:
the result is measured no worse than every entry, and every entry strictly
before it in iteration order measures strictly worse. -/
theorem dictMinAux_spec : ∀ (l : List (Config × Meas)) (b : Config × Meas),
    (∀ p ∈ b :: l, ∀ q ∈ b :: l, sameShape p.2 q.2 = true) →
    (∀ p ∈ b :: l, measLt p.2 (dictMinAux b l).2 = false) ∧
    ∃ l₁ l₂, b :: l = l₁ ++ (dictMinAux b l) :: l₂ ∧
      ∀ p ∈ l₁, measLt (dictMinAux b l).2 p.2 = true
  | [], b, _ => by
    refine ⟨?_, [], [], rfl, by simp⟩
    intro p hp
    simp only [List.mem_singleton] at hp
    subst hp
    simp [dictMinAux, measLt_irrefl]
  | p :: rest, b, hshape => by
    simp only [dictMinAux]
    by_cases hlt : measLt p.2 b.2 = true
    · rw [if_pos hlt]
      have hsub : ∀ x ∈ p :: rest, ∀ y ∈ p :: rest, sameShape x.2 y.2 = true := by
        intro x hx y hy
        exact hshape x (by simp [List.mem_cons] at hx ⊢; tauto)
          y (by simp [List.mem_cons] at hy ⊢; tauto)
      obtain ⟨ihmin, l₁, l₂, hdec, hstrict⟩ := dictMinAux_spec rest p hsub
      have hrb : measLt (dictMinAux p rest).2 b.2 = true := by
        cases l₁ with
        | nil =>
          have : p = dictMinAux p rest := by
            have := hdec
            simp only [List.nil_append] at this
            exact (List.cons.injEq _ _ _ _ ▸ this).1
          rw [← this]
          exact hlt
        | cons q l₁t =>
          have hq : q = p := by
            have := hdec
            simp only [List.cons_append] at this
            exact ((List.cons.injEq _ _ _ _ ▸ this).1).symm
          have hqmem : q ∈ q :: l₁t := List.mem_cons_self q l₁t
          have := hstrict q hqmem
          rw [hq] at this
          exact measLt_trans this hlt
      constructor
      · intro x hx
        rcases List.mem_cons.mp hx with hx | hx
        · subst hx
          by_contra hxb
          have hxb' : measLt x.2 (dictMinAux p rest).2 = true := by
            revert hxb
            cases measLt x.2 (dictMinAux p rest).2 <;> simp
          have := measLt_trans hlt hxb'
          have hfalse := ihmin p (List.mem_cons_self p rest)
          rw [hfalse] at this
          exact absurd this (by simp)
        · exact ihmin x hx
      · refine ⟨b :: l₁, l₂, ?_, ?_⟩
        · simp only [List.cons_append]
          rw [← hdec]
        · intro x hx
          rcases List.mem_cons.mp hx with hx | hx
          · subst hx
            exact hrb
          · exact hstrict x hx
    · rw [if_neg hlt]
      have hlt' : measLt p.2 b.2 = false := by
        revert hlt
        cases measLt p.2 b.2 <;> simp
      have hsub : ∀ x ∈ b :: rest, ∀ y ∈ b :: rest, sameShape x.2 y.2 = true := by
        intro x hx y hy
        exact hshape x (by simp [List.mem_cons] at hx ⊢; tauto)
          y (by simp [List.mem_cons] at hy ⊢; tauto)
      obtain ⟨ihmin, l₁, l₂, hdec, hstrict⟩ := dictMinAux_spec rest b hsub
      have hrmem : dictMinAux b rest ∈ b :: rest := by
        rw [hdec]
        exact List.mem_append.mpr (Or.inr (List.mem_cons_self _ _))
      have hpmin : measLt p.2 (dictMinAux b rest).2 = false := by
        cases l₁ with
        | nil =>
          have : b = dictMinAux b rest := by
            have := hdec
            simp only [List.nil_append] at this
            exact (List.cons.injEq _ _ _ _ ▸ this).1
          rw [← this]
          exact hlt'
        | cons q l₁t =>
          have hq : q = b := by
            have := hdec
            simp only [List.cons_append] at this
            exact ((List.cons.injEq _ _ _ _ ▸ this).1).symm
          have hrbstrict : measLt (dictMinAux b rest).2 b.2 = true := by
            have := hstrict q (List.mem_cons_self q l₁t)
            rw [hq] at this
            exact this
          by_contra hpr
          have hpr' : measLt p.2 (dictMinAux b rest).2 = true := by
            revert hpr
            cases measLt p.2 (dictMinAux b rest).2 <;> simp
          have := measLt_trans hpr' hrbstrict
          rw [hlt'] at this
          exact absurd this (by simp)
      constructor
      · intro x hx
        rcases List.mem_cons.mp hx with hx | hx
        · subst hx
          exact ihmin x (List.mem_cons_self x rest)
        · rcases List.mem_cons.mp hx with hx | hx
          · subst hx
            exact hpmin
          · exact ihmin x (List.mem_cons.mpr (Or.inr hx))
      · cases l₁ with
        | nil =>
          have hrb : b = dictMinAux b rest := by
            have := hdec
            simp only [List.nil_append] at this
            exact (List.cons.injEq _ _ _ _ ▸ this).1
          have hl₂ : rest = l₂ := by
            have := hdec
            simp only [List.nil_append] at this
            exact (List.cons.injEq _ _ _ _ ▸ this).2
          refine ⟨[], p :: rest, ?_, by simp⟩
          simp only [List.nil_append]
          rw [← hrb]
        | cons q l₁t =>
          have hq : q = b := by
            have := hdec
            simp only [List.cons_append] at this
            exact ((List.cons.injEq _ _ _ _ ▸ this).1).symm
          have hrest : rest = l₁t ++ (dictMinAux b rest) :: l₂ := by
            have := hdec
            simp only [List.cons_append] at this
            exact (List.cons.injEq _ _ _ _ ▸ this).2
          have hrbstrict : measLt (dictMinAux b rest).2 b.2 = true := by
            have := hstrict q (List.mem_cons_self q l₁t)
            rw [hq] at this
            exact this
          have hrp : measLt (dictMinAux b rest).2 p.2 = true := by
            by_contra hrp
            have hrp' : measLt (dictMinAux b rest).2 p.2 = false := by
              revert hrp
              cases measLt (dictMinAux b rest).2 p.2 <;> simp
            have hpmem : (p : Config × Meas) ∈ b :: p :: rest :=
              List.mem_cons.mpr (Or.inr (List.mem_cons_self p rest))
            have hrmem' : dictMinAux b rest ∈ b :: p :: rest := by
              rcases List.mem_cons.mp hrmem with h | h
              · exact List.mem_cons.mpr (Or.inl h)
              · exact List.mem_cons.mpr (Or.inr (List.mem_cons.mpr (Or.inr h)))
            have heq := measLt_conn (hshape (dictMinAux b rest) hrmem' p hpmem)
              hrp' hpmin
            rw [heq] at hrbstrict
            rw [hlt'] at hrbstrict
            exact absurd hrbstrict (by simp)
          refine ⟨b :: p :: l₁t, l₂, ?_, ?_⟩
          · simp only [List.cons_append]
            rw [← hrest]
          · intro x hx
            rcases List.mem_cons.mp hx with hx | hx
            · subst hx
              exact hrbstrict
            · rcases List.mem_cons.mp hx with hx | hx
              · subst hx
                exact hrp
              · exact hstrict x (List.mem_cons.mpr (Or.inr hx))

/-- When every candidate's benchmark succeeds (possibly with the caught
failure sentinel), the dict comprehension records one timing per pruned
candidate, in order, benchmarks each of them, and raises nothing. -/
theorem bench_all_ok (A : Autotuner) (M : KernelModel) (metaKeys : List String)
    (tm : Config → Meas) :
    ∀ (cfgs : List Config) (args copies : List Arg),
    (∀ c ∈ cfgs, bench_config A.use_cuda_graph metaKeys c (M.outcome c) = .ok (tm c)) →
    (bench_all A M metaKeys cfgs args copies).timings
        = cfgs.map (fun c => (c, tm c)) ∧
    (bench_all A M metaKeys cfgs args copies).benched = cfgs ∧
    (bench_all A M metaKeys cfgs args copies).err = none
  | [], args, copies, _ => by simp [bench_all]
  | c :: rest, args, copies, h => by
    have hc := h c (List.mem_cons_self c rest)
    have ih := bench_all_ok A M metaKeys tm rest
      (bench_trials A M c args copies).1 (bench_trials A M c args copies).2
      (fun x hx => h x (List.mem_cons.mpr (Or.inr hx)))
    simp only [bench_all, hc]
    exact ⟨by simp [ih.1], by simp [ih.2.1], by simp [ih.2.2]⟩

/-- When the candidates before position `k` all succeed and the candidate at
position `k` hits the meta-parameter conflict, the comprehension raises the
conflict error there: exactly the earlier candidates have been benchmarked. -/
theorem bench_all_conflict (A : Autotuner) (M : KernelModel)
    (metaKeys : List String) (tm : Config → Meas) (c : Config) (l₂ : List Config) :
    ∀ (l₁ : List Config) (args copies : List Arg),
    (∀ x ∈ l₁, bench_config A.use_cuda_graph metaKeys x (M.outcome x) = .ok (tm x)) →
    bench_config A.use_cuda_graph metaKeys c (M.outcome c) = .error .conflict →
    (bench_all A M metaKeys (l₁ ++ c :: l₂) args copies).err = some .conflict ∧
    (bench_all A M metaKeys (l₁ ++ c :: l₂) args copies).benched = l₁
  | [], args, copies, _, hc => by
    simp [bench_all, hc]
  | x :: l₁t, args, copies, h, hc => by
    have hx := h x (List.mem_cons_self x l₁t)
    have ih := bench_all_conflict A M metaKeys tm c l₂ l₁t
      (bench_trials A M x args copies).1 (bench_trials A M x args copies).2
      (fun y hy => h y (List.mem_cons.mpr (Or.inr hy))) hc
    simp only [List.cons_append, bench_all, hx]
    exact ⟨by simp [ih.1], by simp [ih.2]⟩

/-- Appending a fresh entry to the cache makes it the one found for its key
(`self.cache[key] = ...` on a key not yet present). -/
theorem cacheLookup_append (l : List (CacheKey × Config)) (key : CacheKey)
    (w : Config) (h : cacheLookup l key = none) :
    cacheLookup (l ++ [(key, w)]) key = some w := by
  induction l with
  | nil => simp [cacheLookup]
  | cons p rest ih =>
    obtain ⟨k, c⟩ := p
    simp only [cacheLookup, List.cons_append] at h ⊢
    by_cases hk : k = key
    · rw [if_pos hk] at h
      exact absurd h (by simp)
    · rw [if_neg hk] at h ⊢
      exact ih h

/-- With more than one config, a derivable key, and a cache hit, `run`
dispatches the stored config and performs no benchmarking and no store
write. -/
theorem run_eq_hit (A : Autotuner) (M : KernelModel) (args : List Arg)
    (kwargs : List (String × Arg)) (key : CacheKey) (cfg : Config)
    (hlen : A.configs.length > 1)
    (hkey : derive_key A.key_idx (underscore_args A.arg_names args kwargs) = some key)
    (hhit : cacheLookup A.cache key = some cfg) :
    A.run M args kwargs
      = ⟨.ok cfg, A.cache, dispatch_args cfg args, [], false⟩ := by
  simp only [Autotuner.run, hkey, hhit, if_pos hlen]

/-- With more than one config, a derivable key, and a cache miss, `run`
is the miss path. -/
theorem run_eq_miss (A : Autotuner) (M : KernelModel) (args : List Arg)
    (kwargs : List (String × Arg)) (key : CacheKey)
    (hlen : A.configs.length > 1)
    (hkey : derive_key A.key_idx (underscore_args A.arg_names args kwargs) = some key)
    (hmiss : cacheLookup A.cache key = none) :
    A.run M args kwargs = run_miss A M key args kwargs := by
  simp only [Autotuner.run, hkey, hmiss, if_pos hlen]

/-- The successful resolution of a cache miss: every pruned candidate's
benchmark returns a timing, the argmin is not the sentinel, so the winner
is cached, the store write happens, and the winner is dispatched. -/
theorem run_miss_success (A : Autotuner) (M : KernelModel) (key : CacheKey)
    (args : List Arg) (kwargs : List (String × Arg)) (tm : Config → Meas)
    (w : Config) (wt : Meas)
    (hok : ∀ c ∈ M.pruneFn A.configs,
      bench_config A.use_cuda_graph (kwargs.map (fun p => p.1)) c (M.outcome c)
        = .ok (tm c))
    (hwin : dictMin ((M.pruneFn A.configs).map (fun c => (c, tm c)))
        = some (w, wt))
    (hinf : timingIsInf A.use_cuda_graph wt = false) :
    run_miss A M key args kwargs
      = ⟨.ok w, A.cache ++ [(key, w)],
         dispatch_args w
           (engine_pre_hook A.reset_idx A.restore_idx true
             (bench_all A M (kwargs.map (fun p => p.1)) (M.pruneFn A.configs)
               args []).args
             (bench_all A M (kwargs.map (fun p => p.1)) (M.pruneFn A.configs)
               args []).copies).1,
         M.pruneFn A.configs, true⟩ := by
  obtain ⟨ht, hb, he⟩ := bench_all_ok A M (kwargs.map (fun p => p.1)) tm
    (M.pruneFn A.configs) args [] hok
  simp only [run_miss, he, ht, hwin, hb, hinf]
  simp

/-- When every dict entry carries the same measurement, python's `min`
returns the first entry (nothing is ever strictly smaller). -/
theorem dictMinAux_const (m : Meas) :
    ∀ (l : List (Config × Meas)) (b : Config × Meas), b.2 = m →
    (∀ p ∈ l, p.2 = m) → dictMinAux b l = b
  | [], _, _, _ => rfl
  | p :: rest, b, hb, h => by
    have hp : p.2 = m := h p (List.mem_cons_self p rest)
    simp only [dictMinAux, hp, hb, measLt_irrefl, if_neg]
    exact dictMinAux_const m rest b hb (fun q hq => h q (List.mem_cons.mpr (Or.inr hq)))

/-- The all-failed check recognises the sentinel of the matching mode. -/
theorem timingIsInf_sentinel (cg : Bool) : timingIsInf cg (sentinel cg) = true := by
  cases cg <;> simp [timingIsInf, sentinel]

/-- C1: at most one benchmarking pass per key. On the first dispatch whose
derived key misses the cache and whose benchmarking pass completes (every
pruned candidate measured, winner's timing not the sentinel), every pruned
candidate is benchmarked exactly in this call and the winner is stored
under the key; any later dispatch call (by the engine carrying the updated
cache) that derives the same key benchmarks nothing, writes nothing to the
store, and dispatches the kernel once with the cached winning
configuration. -/
theorem C1_at_most_one_benchmark
    (A : Autotuner) (M : KernelModel) (args : List Arg)
    (kwargs : List (String × Arg)) (key : CacheKey) (tm : Config → Meas)
    (w : Config) (wt : Meas)
    (hlen : A.configs.length > 1)
    (hkey : derive_key A.key_idx (underscore_args A.arg_names args kwargs) = some key)
    (hmiss : cacheLookup A.cache key = none)
    (hok : ∀ c ∈ M.pruneFn A.configs,
      bench_config A.use_cuda_graph (kwargs.map (fun p => p.1)) c (M.outcome c)
        = .ok (tm c))
    (hwin : dictMin ((M.pruneFn A.configs).map (fun c => (c, tm c)))
        = some (w, wt))
    (hinf : timingIsInf A.use_cuda_graph wt = false) :
    (A.run M args kwargs).benched = M.pruneFn A.configs ∧
    (A.run M args kwargs).outcome = .ok w ∧
    (A.run M args kwargs).cache = A.cache ++ [(key, w)] ∧
    (A.run M args kwargs).storeSaved = true ∧
    ∀ (args2 : List Arg) (kwargs2 : List (String × Arg)),
      derive_key A.key_idx (underscore_args A.arg_names args2 kwargs2) = some key →
      (Autotuner.run { A with cache := (A.run M args kwargs).cache } M args2 kwargs2).benched = [] ∧
      (Autotuner.run { A with cache := (A.run M args kwargs).cache } M args2 kwargs2).outcome = .ok w ∧
      (Autotuner.run { A with cache := (A.run M args kwargs).cache } M args2 kwargs2).storeSaved = false := by
  have hrun := (run_eq_miss A M args kwargs key hlen hkey hmiss).trans
    (run_miss_success A M key args kwargs tm w wt hok hwin hinf)
  refine ⟨by rw [hrun], by rw [hrun], by rw [hrun], by rw [hrun], ?_⟩
  intro args2 kwargs2 hkey2
  have hhit : cacheLookup (A.run M args kwargs).cache key = some w := by
    rw [hrun]
    exact cacheLookup_append A.cache key w hmiss
  have hrun2 := run_eq_hit { A with cache := (A.run M args kwargs).cache } M
    args2 kwargs2 key w hlen hkey2 hhit
  exact ⟨by rw [hrun2], by rw [hrun2], by rw [hrun2]⟩

/-- C1 witness: a two-config engine, a miss then a hit on the same key. -/
theorem C1_witness :
    let c1 : Config := ⟨[("BLOCK", 16)], 4, 1, 2, none⟩
    let c2 : Config := ⟨[("BLOCK", 32)], 8, 1, 2, none⟩
    let A : Autotuner := ⟨["n"], [c1, c2], [0], [], [], false, []⟩
    let M : KernelModel :=
      ⟨fun _ as => as,
       fun _ => .ok (.quart [.val 1, .val 1, .val 1]),
       1, fun cs => cs⟩
    let args : List Arg := [⟨100, none⟩]
    (A.run M args []).benched = [c1, c2] ∧
    (A.run M args []).outcome = .ok c1 ∧
    (Autotuner.run { A with cache := (A.run M args []).cache } M args []).benched = [] ∧
    (Autotuner.run { A with cache := (A.run M args []).cache } M args []).outcome = .ok c1 := by
  intro c1 c2 A M args
  have h := C1_at_most_one_benchmark A M args [] [KeyElem.v 100]
    (fun _ => .quart [.val 1, .val 1, .val 1]) c1
    (.quart [.val 1, .val 1, .val 1])
    (by decide)
    (by rfl)
    (by rfl)
    (by intro c hc; simp [bench_config])
    (by rfl)
    (by rfl)
  obtain ⟨h1, h2, _, _, h5⟩ := h
  obtain ⟨h6, h7, _⟩ := h5 args [] (by rfl)
  exact ⟨h1, h2, h6, h7⟩

/-- C2: when every pruned candidate's measured latency for a missing key is
the failure sentinel, dispatch raises the all-failed error and nothing is
written to the external store. -/
theorem C2_all_failed_no_store
    (A : Autotuner) (M : KernelModel) (args : List Arg)
    (kwargs : List (String × Arg)) (key : CacheKey)
    (hlen : A.configs.length > 1)
    (hkey : derive_key A.key_idx (underscore_args A.arg_names args kwargs) = some key)
    (hmiss : cacheLookup A.cache key = none)
    (hfail : ∀ c ∈ M.pruneFn A.configs,
      bench_config A.use_cuda_graph (kwargs.map (fun p => p.1)) c (M.outcome c)
        = .ok (sentinel A.use_cuda_graph))
    (hne : M.pruneFn A.configs ≠ []) :
    (A.run M args kwargs).outcome = .error .allFailed ∧
    (A.run M args kwargs).storeSaved = false := by
  rw [run_eq_miss A M args kwargs key hlen hkey hmiss]
  obtain ⟨ht, _, he⟩ := bench_all_ok A M (kwargs.map (fun p => p.1))
    (fun _ => sentinel A.use_cuda_graph) (M.pruneFn A.configs) args [] hfail
  rcases hpr : M.pruneFn A.configs with _ | ⟨c0, rest⟩
  · exact absurd hpr hne
  · rw [hpr] at ht
    have hconst : dictMinAux (c0, sentinel A.use_cuda_graph)
        (rest.map (fun c => (c, sentinel A.use_cuda_graph)))
        = (c0, sentinel A.use_cuda_graph) := by
      refine dictMinAux_const (sentinel A.use_cuda_graph) _ _ rfl ?_
      intro p hp
      obtain ⟨c, _, hcp⟩ := List.mem_map.mp hp
      rw [← hcp]
    have hmin : dictMin ((bench_all A M (kwargs.map (fun p => p.1))
        (M.pruneFn A.configs) args []).timings)
        = some (c0, sentinel A.use_cuda_graph) := by
      rw [hpr, ht]
      simp only [List.map_cons, dictMin]
      rw [hconst]
    simp only [run_miss, he, hmin, timingIsInf_sentinel]
    exact ⟨rfl, rfl⟩

/-- C2 witness: two candidates, both raising `OutOfResources`. -/
theorem C2_witness :
    let c1 : Config := ⟨[("BLOCK", 16)], 4, 1, 2, none⟩
    let c2 : Config := ⟨[("BLOCK", 32)], 8, 1, 2, none⟩
    let A : Autotuner := ⟨["n"], [c1, c2], [0], [], [], false, []⟩
    let M : KernelModel :=
      ⟨fun _ as => as, fun _ => .error .outOfResources, 1, fun cs => cs⟩
    let args : List Arg := [⟨100, none⟩]
    (A.run M args []).outcome = .error .allFailed ∧
    (A.run M args []).storeSaved = false := by
  intro c1 c2 A M args
  exact C2_all_failed_no_store A M args [] [KeyElem.v 100]
    (by decide) (by rfl) (by rfl)
    (by intro c hc; simp [bench_config])
    (by simp [M, A, c1, c2])

/-- C3 (code bug exhibit): `run` writes `self.cache[key]` before raising the
all-failed `RuntimeError`, so after a total failure the key is present in
the cache; the next dispatch for the same key is a cache hit that silently
dispatches the failed configuration — it benchmarks nothing, raises
nothing, and never surfaces the total-failure condition again, contrary to
the never-silently-fall-back guarantee. -/
theorem C3_code_bug_exhibit :
    let c1 : Config := ⟨[("BLOCK", 16)], 4, 1, 2, none⟩
    let c2 : Config := ⟨[("BLOCK", 32)], 8, 1, 2, none⟩
    let A : Autotuner := ⟨["n"], [c1, c2], [0], [], [], false, []⟩
    let M : KernelModel :=
      ⟨fun _ as => as, fun _ => .error .outOfResources, 1, fun cs => cs⟩
    let args : List Arg := [⟨100, none⟩]
    (A.run M args []).outcome = .error .allFailed ∧
    (A.run M args []).cache = [([KeyElem.v 100], c1)] ∧
    (Autotuner.run { A with cache := (A.run M args []).cache } M args []).outcome
      = .ok c1 ∧
    (Autotuner.run { A with cache := (A.run M args []).cache } M args []).benched
      = [] ∧
    (Autotuner.run { A with cache := (A.run M args []).cache } M args []).storeSaved
      = false := by
  intro c1 c2 A M args
  exact ⟨rfl, rfl, rfl, rfl, rfl⟩

/-- Length of a flatMap whose pieces all have the same length. -/
theorem length_flatMap_const {α β : Type} (f : α → List β) (n : Nat)
    (hf : ∀ a, (f a).length = n) : ∀ l : List α, (l.flatMap f).length = l.length * n
  | [] => by simp
  | a :: l => by
    simp only [List.flatMap_cons, List.length_append, hf a,
      length_flatMap_const f n hf l, List.length_cons]
    ring

/-- `itertools.product(*vs)` has the full cross-product cardinality. -/
theorem product_length : ∀ vs : List (List Val),
    (product vs).length = (vs.map List.length).prod
  | [] => rfl
  | l :: ls => by
    simp only [product]
    rw [length_flatMap_const _ (product ls).length (fun a => by simp),
      product_length ls]
    simp

/-- Cardinality of the three-way launch-parameter product. -/
theorem product3_length (ws cs ss : List Val) :
    (product3 ws cs ss).length = ws.length * (cs.length * ss.length) := by
  unfold product3
  exact length_flatMap_const _ (cs.length * ss.length)
    (fun w => length_flatMap_const _ ss.length (fun c => by simp) cs) ws

/-- Cardinality of the two-way product. -/
theorem pairProd_length {α β : Type} (xs : List α) (ys : List β) :
    (pairProd xs ys).length = xs.length * ys.length := by
  unfold pairProd
  exact length_flatMap_const _ ys.length (fun x => by simp) xs

/-- The for-loop over the rejection predicates computes the conjunction of
all of them (AND semantics). -/
theorem acceptConditions_foldl (kw : List (String × Val)) :
    ∀ (conds : List (List (String × Val) → Bool)) (b : Bool),
    conds.foldl (fun append cond => if !(cond kw) then false else append) b
      = (b && conds.all (fun c => c kw))
  | [], b => by simp
  | c :: rest, b => by
    simp only [List.foldl_cons, List.all_cons]
    rw [acceptConditions_foldl kw rest (if !(c kw) then false else b)]
    cases h : c kw <;> simp [h]

/-- `acceptConditions` is exactly the AND of all rejection predicates. -/
theorem acceptConditions_eq_all (conds : List (List (String × Val) → Bool))
    (kw : List (String × Val)) :
    acceptConditions conds kw = conds.all (fun c => c kw) := by
  unfold acceptConditions
  rw [acceptConditions_foldl kw conds true]
  simp

/-- C4: `generate_config_list` produces exactly (number of kwarg
cross-product combinations accepted by every rejection predicate) times
(number of launch-parameter cross-product combinations) configurations;
with zero predicates this is the full cross-product cardinality. -/
theorem C4_generate_length (S : ConfigSpace) :
    S.generate_config_list.length =
      (((product (S.kwargs.map (fun p => p.2))).map
          (fun comb => (S.kwargs.map (fun p => p.1)).zip comb)).filter
        (fun kw => S.kwarg_conditions.all (fun c => c kw))).length
      * (S.num_warps.length * (S.num_ctas.length * S.num_stages.length)) ∧
    (S.kwarg_conditions = [] →
      S.generate_config_list.length =
        (S.kwargs.map (fun p => p.2.length)).prod
          * (S.num_warps.length * (S.num_ctas.length * S.num_stages.length))) := by
  have hfilter :
      ((product (S.kwargs.map (fun p => p.2))).map
          (fun comb => (S.kwargs.map (fun p => p.1)).zip comb)).filter
        (acceptConditions S.kwarg_conditions)
      = ((product (S.kwargs.map (fun p => p.2))).map
          (fun comb => (S.kwargs.map (fun p => p.1)).zip comb)).filter
        (fun kw => S.kwarg_conditions.all (fun c => c kw)) := by
    apply List.filter_congr
    intro kw _
    exact acceptConditions_eq_all S.kwarg_conditions kw
  have hmain : S.generate_config_list.length =
      (((product (S.kwargs.map (fun p => p.2))).map
          (fun comb => (S.kwargs.map (fun p => p.1)).zip comb)).filter
        (fun kw => S.kwarg_conditions.all (fun c => c kw))).length
      * (S.num_warps.length * (S.num_ctas.length * S.num_stages.length)) := by
    unfold ConfigSpace.generate_config_list
    simp only [List.length_map]
    rw [pairProd_length, product3_length, hfilter]
  refine ⟨hmain, ?_⟩
  intro hconds
  rw [hmain, hconds]
  simp only [List.all_nil, List.filter_true]
  rw [List.length_map, product_length, List.map_map]
  rfl

/-- C4 witness: `{"BLOCK": [16, 32]}` with `num_warps=[4,8]` and single
other launch parameters and no predicates yields 2 * 2 = 4 configs. -/
theorem C4_witness :
    let S : ConfigSpace := ⟨[("BLOCK", [16, 32])], [4, 8], [1], [2], none, []⟩
    S.generate_config_list.length = 4 := by
  intro S
  have h := (C4_generate_length S).2 rfl
  rw [h]
  rfl

/-- C7 counterexample: the conflict check lives inside the per-candidate
`_bench`, so when only the second candidate's kwargs collide with the call
kwargs, the first candidate is fully benchmarked before the `ValueError` is
raised — the claim that no candidate at all is measured is false. -/
theorem C7_counterexample :
    let c1 : Config := ⟨[("A", 1)], 4, 1, 2, none⟩
    let c2 : Config := ⟨[("BLOCK", 2)], 8, 1, 2, none⟩
    let A : Autotuner := ⟨["n", "BLOCK"], [c1, c2], [0], [], [], false, []⟩
    let M : KernelModel :=
      ⟨fun _ as => as, fun _ => .ok (.quart [.val 1, .val 1, .val 1]), 1,
       fun cs => cs⟩
    let args : List Arg := [⟨100, none⟩]
    let kwargs : List (String × Arg) := [("BLOCK", ⟨7, none⟩)]
    (A.run M args kwargs).outcome = .error .conflict ∧
    (A.run M args kwargs).benched = [c1] ∧
    [c1] ≠ ([] : List Config) := by
  intro c1 c2 A M args kwargs
  exact ⟨rfl, rfl, by simp⟩

/-- C7 (amended): when a candidate's tunable-parameter names collide with
the call kwargs, dispatch fails fatally with the conflict error before that
candidate is benchmarked and before any winner is selected, cached or
stored; however, the candidates earlier in the pruned order have already
been benchmarked by then. -/
theorem C7_amended_conflict
    (A : Autotuner) (M : KernelModel) (args : List Arg)
    (kwargs : List (String × Arg)) (key : CacheKey) (tm : Config → Meas)
    (c : Config) (l₁ l₂ : List Config)
    (hlen : A.configs.length > 1)
    (hkey : derive_key A.key_idx (underscore_args A.arg_names args kwargs) = some key)
    (hmiss : cacheLookup A.cache key = none)
    (hsplit : M.pruneFn A.configs = l₁ ++ c :: l₂)
    (hpre : ∀ x ∈ l₁,
      bench_config A.use_cuda_graph (kwargs.map (fun p => p.1)) x (M.outcome x)
        = .ok (tm x))
    (hc : bench_config A.use_cuda_graph (kwargs.map (fun p => p.1)) c (M.outcome c)
        = .error .conflict) :
    (A.run M args kwargs).outcome = .error .conflict ∧
    (A.run M args kwargs).benched = l₁ ∧
    (A.run M args kwargs).cache = A.cache ∧
    (A.run M args kwargs).storeSaved = false := by
  rw [run_eq_miss A M args kwargs key hlen hkey hmiss]
  obtain ⟨he, hb⟩ := bench_all_conflict A M (kwargs.map (fun p => p.1)) tm c l₂
    l₁ args [] hpre hc
  rw [← hsplit] at he hb
  simp [run_miss, he, hb]

/-- C7 amended witness: the concrete two-candidate conflict scenario. -/
theorem C7_amended_witness :
    let c1 : Config := ⟨[("A", 1)], 4, 1, 2, none⟩
    let c2 : Config := ⟨[("BLOCK", 2)], 8, 1, 2, none⟩
    let A : Autotuner := ⟨["n", "BLOCK"], [c1, c2], [0], [], [], false, []⟩
    let M : KernelModel :=
      ⟨fun _ as => as, fun _ => .ok (.quart [.val 1, .val 1, .val 1]), 1,
       fun cs => cs⟩
    let args : List Arg := [⟨100, none⟩]
    let kwargs : List (String × Arg) := [("BLOCK", ⟨7, none⟩)]
    (A.run M args kwargs).outcome = .error .conflict ∧
    (A.run M args kwargs).benched = [c1] ∧
    (A.run M args kwargs).cache = A.cache ∧
    (A.run M args kwargs).storeSaved = false := by
  intro c1 c2 A M args kwargs
  exact C7_amended_conflict A M args kwargs [KeyElem.v 100]
    (fun _ => .quart [.val 1, .val 1, .val 1]) c2 [c1] []
    (by decide) (by rfl) (by rfl) (by rfl)
    (by
      intro x hx
      have hx1 : x = c1 := by simpa [A, c1, c2] using hx
      rw [hx1]
      rfl)
    (by rfl)

/-- C8 counterexample: two candidates tie on the first (median) element of
their quantile lists; python's `min` compares the whole list
lexicographically, so the second candidate (smaller second quantile) is
selected, not the first-seen minimum of the representative scalar. -/
theorem C8_counterexample :
    let cA : Config := ⟨[("BLOCK", 16)], 4, 1, 2, none⟩
    let cB : Config := ⟨[("BLOCK", 32)], 8, 1, 2, none⟩
    let lA : List PFloat := [.val 1, .val 5, .val 5]
    let lB : List PFloat := [.val 1, .val 2, .val 2]
    lA.head? = lB.head? ∧
    dictMin [(cA, .quart lA), (cB, .quart lB)] = some (cB, .quart lB) ∧
    cA.num_warps ≠ cB.num_warps := by
  intro cA cB lA lB
  exact ⟨rfl, rfl, by decide⟩

/-- C8 (amended): winner selection compares candidates by their full timing
measurement (python comparison: scalar in cuda-graph mode, lexicographic
over the quantile list otherwise); the selected entry is one no candidate
measures strictly below, and every candidate strictly earlier in the
mapping's iteration order measures strictly worse — so ties on the full
measurement are broken in favour of the first-seen candidate. -/
theorem C8_amended_selection (l : List (Config × Meas)) (r : Config × Meas)
    (hshape : ∀ p ∈ l, ∀ q ∈ l, sameShape p.2 q.2 = true)
    (hr : dictMin l = some r) :
    (∀ p ∈ l, measLt p.2 r.2 = false) ∧
    ∃ l₁ l₂, l = l₁ ++ r :: l₂ ∧ ∀ p ∈ l₁, measLt r.2 p.2 = true := by
  cases l with
  | nil => simp [dictMin] at hr
  | cons b rest =>
    simp only [dictMin, Option.some.injEq] at hr
    have h := dictMinAux_spec rest b hshape
    rw [hr] at h
    exact h

/-- C8 amended witness: a two-entry timings dict where the later entry is
the strict minimum. -/
theorem C8_amended_witness :
    let cA : Config := ⟨[("BLOCK", 16)], 4, 1, 2, none⟩
    let cB : Config := ⟨[("BLOCK", 32)], 8, 1, 2, none⟩
    let l : List (Config × Meas) :=
      [(cA, .quart [.val 3]), (cB, .quart [.val 1])]
    (∀ p ∈ l, measLt p.2 (Meas.quart [.val 1]) = false) ∧
    ∃ l₁ l₂, l = l₁ ++ (cB, Meas.quart [.val 1]) :: l₂ ∧
      ∀ p ∈ l₁, measLt (Meas.quart [.val 1]) p.2 = true := by
  intro cA cB l
  exact C8_amended_selection l (cB, .quart [.val 1]) (by decide) (by rfl)

/-- C10: with an empty configuration list (all combinations rejected, or an
empty restored-winners restriction), dispatch takes the single-config fast
path and fails with the out-of-range indexing error of `self.configs[0]`;
there is no dedicated no-configurations error and nothing is benchmarked. -/
theorem C10_empty_configs_index_error
    (A : Autotuner) (M : KernelModel) (args : List Arg)
    (kwargs : List (String × Arg)) (hempty : A.configs = []) :
    (A.run M args kwargs).outcome = .error .indexError ∧
    (A.run M args kwargs).benched = [] ∧
    (A.run M args kwargs).storeSaved = false := by
  simp [Autotuner.run, hempty]

/-- C10 witness: a concrete engine with an empty config list. -/
theorem C10_witness :
    let A : Autotuner := ⟨["n"], [], [0], [], [], false, []⟩
    let M : KernelModel :=
      ⟨fun _ as => as, fun _ => .ok (.quart [.val 1, .val 1, .val 1]), 1,
       fun cs => cs⟩
    (A.run M [⟨100, none⟩] []).outcome = .error .indexError ∧
    (A.run M [⟨100, none⟩] []).benched = [] ∧
    (A.run M [⟨100, none⟩] []).storeSaved = false := by
  intro A M
  exact C10_empty_configs_index_error A M [⟨100, none⟩] [] (by rfl)

/-- C6: the failure policy of `_bench` for one candidate (no meta-parameter
conflict): a raised `OutOfResources`, `CompileTimeAssertionFailure` or
`AssertionError` — and only those classes — becomes the failure sentinel,
in the scalar or triple shape matching the benchmarking mode; a successful
measurement passes through; every other exception class propagates out of
the benchmark call. -/
theorem C6_bench_failure_policy (cg : Bool) (metaKeys : List String)
    (config : Config)
    (hnc : config.kwargs.any (fun kv => metaKeys.contains kv.1) = false) :
    (∀ e : BErr,
      (e = .outOfResources ∨ e = .compileTimeAssertionFailure ∨ e = .assertionError) →
      bench_config cg metaKeys config (.error e) = .ok (sentinel cg)) ∧
    (∀ e : BErr,
      bench_config cg metaKeys config (.error e) = .ok (sentinel cg) →
      (e = .outOfResources ∨ e = .compileTimeAssertionFailure ∨ e = .assertionError)) ∧
    (∀ s : String,
      bench_config cg metaKeys config (.error (.other s)) = .error (.benchError s)) ∧
    (∀ m : Meas, bench_config cg metaKeys config (.ok m) = .ok m) ∧
    sentinel cg = (if cg then Meas.scalar PFloat.inf
      else Meas.quart [PFloat.inf, PFloat.inf, PFloat.inf]) := by
  refine ⟨?_, ?_, ?_, ?_, rfl⟩
  · intro e he
    rcases he with rfl | rfl | rfl <;>
      (unfold bench_config; rw [hnc]; rfl)
  · intro e he
    cases e with
    | outOfResources => exact Or.inl rfl
    | compileTimeAssertionFailure => exact Or.inr (Or.inl rfl)
    | assertionError => exact Or.inr (Or.inr rfl)
    | other s =>
      unfold bench_config at he
      rw [hnc] at he
      simp at he
  · intro s
    unfold bench_config
    rw [hnc]
    rfl
  · intro m
    unfold bench_config
    rw [hnc]
    rfl

/-- C6 witness: a caught class becomes the sentinel, an uncaught class
propagates. -/
theorem C6_witness :
    let c1 : Config := ⟨[("BLOCK", 16)], 4, 1, 2, none⟩
    bench_config false [] c1 (.error .outOfResources)
      = .ok (sentinel false) ∧
    bench_config false [] c1 (.error (.other "TypeError"))
      = .error (.benchError "TypeError") := by
  intro c1
  have h := C6_bench_failure_policy false [] c1 (by rfl)
  exact ⟨h.1 .outOfResources (Or.inl rfl), h.2.2.1 "TypeError"⟩

/-- When every remaining name is supplied — positionally (its position is
within the supplied prefix) or by keyword — the `_args` comprehension keeps
one entry per name, in declaration order: the kwargs value when the name is
passed by keyword, otherwise the positional value. -/
theorem underscoreArgsAux_eq_cov (args : List Arg) (kwargs : List (String × Arg)) :
    ∀ (names : List String) (i : Nat),
    (∀ j, j < names.length →
      (kwLookup kwargs (names.getD j "")).isSome = true ∨ i + j < args.length) →
    underscoreArgsAux args kwargs names i
      = (List.range names.length).map (fun j =>
          (kwLookup kwargs (names.getD j "")).getD (args.getD (i + j) ⟨0, none⟩))
  | [], i, _ => by simp [underscoreArgsAux]
  | name :: rest, i, h => by
    have hrest : underscoreArgsAux args kwargs rest (i + 1)
        = (List.range rest.length).map (fun j =>
            (kwLookup kwargs (rest.getD j "")).getD
              (args.getD ((i + 1) + j) ⟨0, none⟩)) := by
      apply underscoreArgsAux_eq_cov args kwargs rest (i + 1)
      intro j hj
      have hj1 := h (j + 1) (by simp only [List.length_cons]; omega)
      rcases hj1 with hkw | hlt
      · exact Or.inl hkw
      · exact Or.inr (by omega)
    have htail : (List.map Nat.succ (List.range rest.length)).map (fun j =>
          (kwLookup kwargs ((name :: rest).getD j "")).getD
            (args.getD (i + j) ⟨0, none⟩))
        = (List.range rest.length).map (fun j =>
            (kwLookup kwargs (rest.getD j "")).getD
              (args.getD ((i + 1) + j) ⟨0, none⟩)) := by
      rw [List.map_map]
      apply List.map_congr_left
      intro j _
      show (kwLookup kwargs ((name :: rest).getD (j + 1) "")).getD
          (args.getD (i + (j + 1)) ⟨0, none⟩)
        = (kwLookup kwargs (rest.getD j "")).getD
            (args.getD ((i + 1) + j) ⟨0, none⟩)
      rw [(by omega : i + (j + 1) = (i + 1) + j)]
      rfl
    calc underscoreArgsAux args kwargs (name :: rest) i
        = (kwLookup kwargs name).getD (args.getD i ⟨0, none⟩)
            :: underscoreArgsAux args kwargs rest (i + 1) := by
          simp only [underscoreArgsAux]
          cases hkw : kwLookup kwargs name with
          | some a => rfl
          | none =>
            have h0 := h 0 (by simp)
            have hilt : i < args.length := by
              rcases h0 with hs | hlt
              · simp only [List.getD_cons_zero] at hs
                rw [hkw] at hs
                simp at hs
              · omega
            have hget : args.get? i = some args[i] := by
              rw [List.get?_eq_getElem?]
              exact List.getElem?_eq_getElem hilt
            have hgd : args.getD i ⟨0, none⟩ = args[i] := by
              rw [List.getD_eq_getElem?_getD, List.getElem?_eq_getElem hilt]
              rfl
            rw [hget, hgd]
            rfl
      _ = (List.range (name :: rest).length).map (fun j =>
            (kwLookup kwargs ((name :: rest).getD j "")).getD
              (args.getD (i + j) ⟨0, none⟩)) := by
          simp only [List.length_cons]
          rw [List.range_succ_eq_map, List.map_cons, htail, hrest]
          rfl

/-- `[_args[i] for i in idxs]` succeeds when every index is in range and
returns the listed elements. -/
theorem getAll_eq (uargs : List Arg) :
    ∀ idxs : List Nat, (∀ i ∈ idxs, i < uargs.length) →
    getAll uargs idxs
      = some (idxs.map (fun i => uargs.getD i ⟨0, none⟩))
  | [], _ => rfl
  | i :: rest, h => by
    have hi : i < uargs.length := h i (List.mem_cons_self i rest)
    have hget : uargs.get? i = some uargs[i] := by
      rw [List.get?_eq_getElem?]
      exact List.getElem?_eq_getElem hi
    have hgetD : uargs.getD i ⟨0, none⟩ = uargs[i] := by
      rw [List.getD_eq_getElem?_getD, List.getElem?_eq_getElem hi, Option.getD_some]
    simp only [getAll, hget, getAll_eq uargs rest
      (fun j hj => h j (List.mem_cons.mpr (Or.inr hj))),
      List.map_cons, hgetD]
    rfl

/-- C5 (amended): provided every declared argument is supplied at the call
— each name of `arg_names` is covered positionally (its position lies
within the supplied positional prefix) or by keyword — the derived CacheKey
is exactly the ordered tuple of the runtime values of the key-specification
arguments (in specification order, via their positions in `arg_names`, a
keyword value taking precedence over a positional one), followed by the
string-rendered element type of every supplied argument that exposes one,
in argument-declaration order. -/
theorem C5_amended_key
    (arg_names : List String) (args : List Arg) (kwargs : List (String × Arg))
    (key_idx : List Nat)
    (hcov : ∀ j, j < arg_names.length →
      (kwLookup kwargs (arg_names.getD j "")).isSome = true ∨ j < args.length)
    (hidx : ∀ i ∈ key_idx, i < arg_names.length) :
    derive_key key_idx (underscore_args arg_names args kwargs)
      = some
        ((key_idx.map (fun i => KeyElem.v
            ((kwLookup kwargs (arg_names.getD i "")).getD
              (args.getD i ⟨0, none⟩)).value))
          ++ ((List.range arg_names.length).map (fun j =>
                (kwLookup kwargs (arg_names.getD j "")).getD
                  (args.getD j ⟨0, none⟩))).filterMap
              (fun a => a.dtype.map KeyElem.s)) := by
  have hu : underscore_args arg_names args kwargs
      = (List.range arg_names.length).map (fun j =>
          (kwLookup kwargs (arg_names.getD j "")).getD
            (args.getD (0 + j) ⟨0, none⟩)) := by
    unfold underscore_args
    apply underscoreArgsAux_eq_cov
    intro j hj
    rcases hcov j hj with hs | hlt
    · exact Or.inl hs
    · exact Or.inr (by omega)
  have hu2 : underscore_args arg_names args kwargs
      = (List.range arg_names.length).map (fun j =>
          (kwLookup kwargs (arg_names.getD j "")).getD
            (args.getD j ⟨0, none⟩)) := by
    rw [hu]
    apply List.map_congr_left
    intro j _
    rw [Nat.zero_add]
  have hmlen : ((List.range arg_names.length).map (fun j =>
      (kwLookup kwargs (arg_names.getD j "")).getD
        (args.getD j ⟨0, none⟩))).length = arg_names.length := by
    rw [List.length_map, List.length_range]
  have hkeys : key_idx.map (fun i =>
        ((List.range arg_names.length).map (fun j =>
          (kwLookup kwargs (arg_names.getD j "")).getD
            (args.getD j ⟨0, none⟩))).getD i ⟨0, none⟩)
      = key_idx.map (fun i =>
          (kwLookup kwargs (arg_names.getD i "")).getD
            (args.getD i ⟨0, none⟩)) := by
    apply List.map_congr_left
    intro i hi
    rw [List.getD_eq_getElem?_getD, List.getElem?_map,
      List.getElem?_range (hidx i hi)]
    rfl
  unfold derive_key
  rw [hu2, getAll_eq _ key_idx (fun i hi => by rw [hmlen]; exact hidx i hi),
    hkeys]
  show some _ = some _
  beta_reduce
  rw [List.map_map]
  rfl

/-- C5 amended witness: a keyword-completed call — `x` supplied
positionally, the key argument `n` supplied by keyword — derives the key
argument's value followed by the one exposed dtype. -/
theorem C5_amended_witness :
    derive_key [1] (underscore_args ["x", "n"] [⟨10, some "torch.float16"⟩]
        [("n", ⟨5, none⟩)])
      = some [KeyElem.v 5, KeyElem.s "torch.float16"] := by
  exact (C5_amended_key ["x", "n"] [⟨10, some "torch.float16"⟩]
    [("n", ⟨5, none⟩)] [1] (by decide) (by decide)).trans (by rfl)

/-- C5 counterexample: `key_idx` holds positions in the full `arg_names`
list, but `_args` only contains the supplied arguments, so when an
unsupplied (tunable) argument precedes a key argument in declaration order
the indices shift: with `arg_names = [a, b, x, n]`, key spec `[x]`
(`key_idx = [2]`), `b` unsupplied, the derived key holds the value of the
non-key argument `n` instead of `x` — so two calls with identical
key-argument values and dtypes but different `n` derive different keys. -/
theorem C5_counterexample :
    derive_key [2] (underscore_args ["a", "b", "x", "n"] [⟨1, none⟩]
        [("x", ⟨10, none⟩), ("n", ⟨7, none⟩)]) = some [KeyElem.v 7] ∧
    derive_key [2] (underscore_args ["a", "b", "x", "n"] [⟨1, none⟩]
        [("x", ⟨10, none⟩), ("n", ⟨8, none⟩)]) = some [KeyElem.v 8] ∧
    (some [KeyElem.v 7] : Option CacheKey) ≠ some [KeyElem.v 10] ∧
    (some [KeyElem.v 7] : Option CacheKey) ≠ some [KeyElem.v 8] := by
  refine ⟨rfl, rfl, by decide, by decide⟩

/-- Zeroing some indices preserves the list length. -/
theorem zero_at_length : ∀ (idxs : List Nat) (as : List Arg),
    (zero_at idxs as).length = as.length
  | [], _ => rfl
  | i :: rest, as => by
    simp only [zero_at, List.foldl_cons]
    cases h : as.get? i with
    | some a =>
      simp only [h]
      rw [show (List.foldl _ (as.set i { value := 0, dtype := a.dtype }) rest)
          = zero_at rest (as.set i { value := 0, dtype := a.dtype }) from rfl,
        zero_at_length rest, List.length_set]
    | none =>
      simp only [h]
      exact zero_at_length rest as

/-- Zeroing does not touch a position outside the reset indices. -/
theorem zero_at_get_not_mem : ∀ (idxs : List Nat) (as : List Arg) (j : Nat),
    j ∉ idxs → (zero_at idxs as).get? j = as.get? j
  | [], _, _, _ => rfl
  | i :: rest, as, j, hj => by
    have hij : i ≠ j := fun h => hj (h ▸ List.mem_cons_self i rest)
    have hjrest : j ∉ rest := fun h => hj (List.mem_cons.mpr (Or.inr h))
    simp only [zero_at, List.foldl_cons]
    cases h : as.get? i with
    | some a =>
      simp only [h]
      rw [show (List.foldl _ (as.set i { value := 0, dtype := a.dtype }) rest)
          = zero_at rest (as.set i { value := 0, dtype := a.dtype }) from rfl,
        zero_at_get_not_mem rest _ j hjrest, List.get?_eq_getElem?,
        List.get?_eq_getElem?, List.getElem?_set_ne hij]
    | none =>
      simp only [h]
      exact zero_at_get_not_mem rest as j hjrest

/-- The snapshot list pairs each restore index with the current contents at
that index: every pair of the zip satisfies `src[i] = copy`. -/
theorem mem_zip_filterMap (src : List Arg) :
    ∀ rl : List Nat, (∀ i ∈ rl, i < src.length) →
    ∀ p ∈ rl.zip (rl.filterMap (fun i => src.get? i)), src.get? p.1 = some p.2
  | [], _, p, hp => by simp at hp
  | i :: rest, h, p, hp => by
    have hi : i < src.length := h i (List.mem_cons_self i rest)
    have hget : src.get? i = some src[i] := by
      rw [List.get?_eq_getElem?]
      exact List.getElem?_eq_getElem hi
    rw [List.filterMap_cons, hget] at hp
    simp only [List.zip_cons_cons, List.mem_cons] at hp
    rcases hp with hp | hp
    · rw [hp]
      exact hget
    · exact mem_zip_filterMap src rest
        (fun x hx => h x (List.mem_cons.mpr (Or.inr hx))) p hp

/-- The snapshot of the restore indices has one entry per index when all
indices are in range. -/
theorem filterMap_get_length (src : List Arg) :
    ∀ rl : List Nat, (∀ i ∈ rl, i < src.length) →
    (rl.filterMap (fun i => src.get? i)).length = rl.length
  | [], _ => rfl
  | i :: rest, h => by
    have hi : i < src.length := h i (List.mem_cons_self i rest)
    have hget : src.get? i = some src[i] := by
      rw [List.get?_eq_getElem?]
      exact List.getElem?_eq_getElem hi
    rw [List.filterMap_cons, hget]
    simp only [List.length_cons]
    rw [filterMap_get_length src rest
      (fun x hx => h x (List.mem_cons.mpr (Or.inr hx)))]

/-- The write-back fold of the built-in post-hook preserves the length. -/
theorem copyFold_length : ∀ (ps : List (Nat × Arg)) (as : List Arg),
    (ps.foldl copy_step as).length = as.length
  | [], _ => rfl
  | p :: rest, as => by
    simp only [List.foldl_cons]
    rw [copyFold_length rest]
    cases h : as.get? p.1 with
    | some a =>
      simp only [copy_step, h]
      rw [List.length_set]
    | none =>
      simp only [copy_step, h]

/-- Reading position `j` after the write-back fold: if some pair writes to
`j` (and every pair writing to `j` carries the value `v`), the contents
become `v` with the dtype unchanged; otherwise the position is untouched. -/
theorem copyFold_get (j : Nat) (v : Val) :
    ∀ (ps : List (Nat × Arg)) (as : List Arg),
    (∀ p ∈ ps, p.1 = j → p.2.value = v) →
    (ps.foldl copy_step as).get? j
      = if j ∈ ps.map Prod.fst
          then (as.get? j).map (fun a => { value := v, dtype := a.dtype })
          else as.get? j
  | [], as, _ => by simp
  | p :: rest, as, hall => by
    have hallrest : ∀ q ∈ rest, q.1 = j → q.2.value = v :=
      fun q hq => hall q (List.mem_cons.mpr (Or.inr hq))
    simp only [List.foldl_cons]
    rw [copyFold_get j v rest _ hallrest]
    by_cases hpj : p.1 = j
    · have hstep : (copy_step as p).get? j
          = (as.get? j).map (fun a => { value := v, dtype := a.dtype }) := by
        cases hget : as.get? p.1 with
        | some a =>
          have hv : p.2.value = v := hall p (List.mem_cons_self p rest) hpj
          have hjlt : j < as.length := by
            rw [← hpj]
            rw [List.get?_eq_getElem?] at hget
            exact (List.getElem?_eq_some_iff.mp hget).1
          have hj : as.get? j = some a := hpj ▸ hget
          simp only [copy_step, hpj, hj, hv]
          rw [List.get?_eq_getElem?, List.getElem?_set_self hjlt]
          rfl
        | none =>
          have hj : as.get? j = none := hpj ▸ hget
          simp only [copy_step, hpj, hj]
          rfl
      rw [hstep]
      have hmemhead : j ∈ (p :: rest).map Prod.fst := by
        rw [List.map_cons]
        exact hpj ▸ List.mem_cons_self p.1 (rest.map Prod.fst)
      rw [if_pos hmemhead]
      by_cases hmem : j ∈ rest.map Prod.fst
      · rw [if_pos hmem]
        cases as.get? j <;> simp
      · rw [if_neg hmem]
    · have hstep : (copy_step as p).get? j = as.get? j := by
        cases hget : as.get? p.1 with
        | some a =>
          simp only [copy_step, hget]
          rw [List.get?_eq_getElem?, List.get?_eq_getElem?]
          exact List.getElem?_set_ne hpj
        | none =>
          simp only [copy_step, hget]
      rw [hstep]
      have hcond : (j ∈ (p :: rest).map Prod.fst) ↔ (j ∈ rest.map Prod.fst) := by
        rw [List.map_cons, List.mem_cons]
        exact ⟨fun h => h.elim (fun hh => absurd hh.symm hpj) id, Or.inr⟩
      by_cases hmem : j ∈ rest.map Prod.fst
      · rw [if_pos hmem, if_pos (hcond.mpr hmem)]
      · rw [if_neg hmem, if_neg (fun h => hmem (hcond.mp h))]

/-- One trial execution with the built-in hook pair preserves a
restore-registered argument that is not reset-registered: the snapshot is
taken after the zeroing, the kernel mutates only contents (length and
dtypes of the argument list are fixed), and the post-hook writes the
snapshot back. -/
theorem kernel_call_preserves
    (A : Autotuner) (M : KernelModel) (c : Config) (j : Nat) (a0 : Arg) (n : Nat)
    (hpre : c.pre_hook = none)
    (hkernlen : ∀ (cf : Config) (as : List Arg), (M.kern cf as).length = as.length)
    (hkerndtype : ∀ (cf : Config) (as : List Arg) (i : Nat),
      ((M.kern cf as).get? i).map Arg.dtype = (as.get? i).map Arg.dtype)
    (hjr : j ∈ A.restore_idx) (hjnr : j ∉ A.reset_idx)
    (hrange : ∀ i ∈ A.restore_idx, i < n) :
    ∀ args copies : List Arg, args.length = n → args.get? j = some a0 →
      (kernel_call A M c args copies).1.length = n ∧
      (kernel_call A M c args copies).1.get? j = some a0 := by
  intro args copies hn hj
  have hre : A.restore_idx.isEmpty = false := by
    cases hempty : A.restore_idx with
    | nil =>
      rw [hempty] at hjr
      simp at hjr
    | cons x xs => rfl
  have hand : (A.reset_idx.isEmpty && A.restore_idx.isEmpty) = false := by
    rw [hre]
    simp
  have hstep : kernel_call A M c args copies
      = engine_post_hook A.restore_idx (M.kern c (zero_at A.reset_idx args))
          (A.restore_idx.filterMap (fun i => (zero_at A.reset_idx args).get? i)) := by
    unfold kernel_call engine_pre_hook
    rw [hpre, hand]
    rfl
  have hpost : engine_post_hook A.restore_idx (M.kern c (zero_at A.reset_idx args))
      (A.restore_idx.filterMap (fun i => (zero_at A.reset_idx args).get? i))
      = ((A.restore_idx.zip
            (A.restore_idx.filterMap (fun i => (zero_at A.reset_idx args).get? i))).foldl
          copy_step (M.kern c (zero_at A.reset_idx args)), []) := by
    unfold engine_post_hook
    rw [hre]
    rfl
  rw [hstep, hpost]
  have hlen1 : (zero_at A.reset_idx args).length = n :=
    (zero_at_length A.reset_idx args).trans hn
  have hlen2 : (M.kern c (zero_at A.reset_idx args)).length = n :=
    (hkernlen c (zero_at A.reset_idx args)).trans hlen1
  have hrange1 : ∀ i ∈ A.restore_idx, i < (zero_at A.reset_idx args).length := by
    intro i hi
    rw [hlen1]
    exact hrange i hi
  have hj1 : (zero_at A.reset_idx args).get? j = some a0 :=
    (zero_at_get_not_mem A.reset_idx args j hjnr).trans hj
  have hall : ∀ p ∈ A.restore_idx.zip
      (A.restore_idx.filterMap (fun i => (zero_at A.reset_idx args).get? i)),
      p.1 = j → p.2.value = a0.value := by
    intro p hp hpj
    have hzf := mem_zip_filterMap (zero_at A.reset_idx args) A.restore_idx hrange1 p hp
    rw [hpj, hj1] at hzf
    rw [(Option.some.injEq _ _ ▸ hzf : a0 = p.2)]
  have hjin : j ∈ (A.restore_idx.zip
      (A.restore_idx.filterMap (fun i => (zero_at A.reset_idx args).get? i))).map
        Prod.fst := by
    rw [List.map_fst_zip]
    · exact hjr
    · rw [filterMap_get_length (zero_at A.reset_idx args) A.restore_idx hrange1]
  constructor
  · rw [copyFold_length]
    exact hlen2
  · rw [copyFold_get j a0.value _ _ hall, if_pos hjin]
    have hjlt2 : j < (M.kern c (zero_at A.reset_idx args)).length := by
      rw [hlen2]
      exact hrange j hjr
    have hget2 : (M.kern c (zero_at A.reset_idx args)).get? j
        = some (M.kern c (zero_at A.reset_idx args))[j] := by
      rw [List.get?_eq_getElem?]
      exact List.getElem?_eq_getElem hjlt2
    have hdt := hkerndtype c (zero_at A.reset_idx args) j
    rw [hget2, hj1] at hdt
    simp only [Option.map] at hdt
    rw [hget2]
    simp only [Option.map]
    rw [(Option.some.injEq _ _ ▸ hdt : (M.kern c (zero_at A.reset_idx args))[j].dtype
      = a0.dtype)]

/-- A fold preserves any invariant its step preserves. -/
theorem foldl_invariant {α β : Type} (P : α → Prop) (f : α → β → α)
    (hf : ∀ a b, P a → P (f a b)) :
    ∀ (l : List β) (a : α), P a → P (l.foldl f a)
  | [], _, ha => ha
  | b :: l, a, ha => foldl_invariant P f hf l (f a b) (hf a b ha)

/-- The repeated trials of one candidate's benchmark preserve a
restore-registered, non-reset argument. -/
theorem bench_trials_preserves
    (A : Autotuner) (M : KernelModel) (c : Config) (j : Nat) (a0 : Arg) (n : Nat)
    (hpre : c.pre_hook = none)
    (hkernlen : ∀ (cf : Config) (as : List Arg), (M.kern cf as).length = as.length)
    (hkerndtype : ∀ (cf : Config) (as : List Arg) (i : Nat),
      ((M.kern cf as).get? i).map Arg.dtype = (as.get? i).map Arg.dtype)
    (hjr : j ∈ A.restore_idx) (hjnr : j ∉ A.reset_idx)
    (hrange : ∀ i ∈ A.restore_idx, i < n)
    (args copies : List Arg) (hn : args.length = n) (hj : args.get? j = some a0) :
    (bench_trials A M c args copies).1.length = n ∧
    (bench_trials A M c args copies).1.get? j = some a0 := by
  unfold bench_trials
  exact foldl_invariant
    (fun p => p.1.length = n ∧ p.1.get? j = some a0)
    (fun p _ => kernel_call A M c p.1 p.2)
    (fun p _ hp => kernel_call_preserves A M c j a0 n hpre hkernlen hkerndtype
      hjr hjnr hrange p.1 p.2 hp.1 hp.2)
    (List.range M.nTrials) (args, copies) ⟨hn, hj⟩

/-- The whole benchmarking pass preserves a restore-registered, non-reset
argument, provided no benchmarked candidate carries its own pre-hook. -/
theorem bench_all_preserves
    (A : Autotuner) (M : KernelModel) (metaKeys : List String) (j : Nat)
    (a0 : Arg) (n : Nat)
    (hkernlen : ∀ (cf : Config) (as : List Arg), (M.kern cf as).length = as.length)
    (hkerndtype : ∀ (cf : Config) (as : List Arg) (i : Nat),
      ((M.kern cf as).get? i).map Arg.dtype = (as.get? i).map Arg.dtype)
    (hjr : j ∈ A.restore_idx) (hjnr : j ∉ A.reset_idx)
    (hrange : ∀ i ∈ A.restore_idx, i < n) :
    ∀ (cfgs : List Config) (args copies : List Arg),
      (∀ c ∈ cfgs, c.pre_hook = none) →
      args.length = n → args.get? j = some a0 →
      (bench_all A M metaKeys cfgs args copies).args.length = n ∧
      (bench_all A M metaKeys cfgs args copies).args.get? j = some a0
  | [], _, _, _, hn, hj => ⟨hn, hj⟩
  | c :: rest, args, copies, hpre, hn, hj => by
    have htr := bench_trials_preserves A M c j a0 n
      (hpre c (List.mem_cons_self c rest)) hkernlen hkerndtype hjr hjnr hrange
      args copies hn hj
    have ih := bench_all_preserves A M metaKeys j a0 n hkernlen hkerndtype
      hjr hjnr hrange rest (bench_trials A M c args copies).1
      (bench_trials A M c args copies).2
      (fun x hx => hpre x (List.mem_cons.mpr (Or.inr hx))) htr.1 htr.2
    simp only [bench_all]
    cases hbc : bench_config A.use_cuda_graph metaKeys c (M.outcome c) with
    | error e =>
      cases e with
      | conflict => exact ⟨hn, hj⟩
      | benchError s => exact ⟨hn, hj⟩
      | emptyMin => exact ⟨hn, hj⟩
      | allFailed => exact ⟨hn, hj⟩
      | indexError => exact ⟨hn, hj⟩
      | keyIndexError => exact ⟨hn, hj⟩
    | ok m => exact ih

/-- C9 (amended): for an argument registered for restore-value and not for
reset-to-zero, a cache-miss dispatch whose benchmarking pass succeeds (no
conflicts, every pruned candidate's benchmark genuinely returns a timing,
no candidate or winner carries its own pre-hook, and the kernel mutates
only buffer contents — lengths and dtypes of the argument list are fixed)
leaves that argument immediately before the final production dispatch equal
to its value before the very first benchmarking trial: trial-run mutations
do not leak into the production call. (`houtcome` pins every candidate to a
genuine success: for a candidate whose benchmark raises a caught failure
the python code skips that trial's post-hook, a case outside this model.) -/
theorem C9_restore_preserved
    (A : Autotuner) (M : KernelModel) (args : List Arg)
    (kwargs : List (String × Arg)) (key : CacheKey) (tm : Config → Meas)
    (w : Config) (wt : Meas) (j : Nat) (a0 : Arg)
    (hlen : A.configs.length > 1)
    (hkey : derive_key A.key_idx (underscore_args A.arg_names args kwargs) = some key)
    (hmiss : cacheLookup A.cache key = none)
    (hprehooks : ∀ c ∈ M.pruneFn A.configs, c.pre_hook = none)
    (hok : ∀ c ∈ M.pruneFn A.configs,
      bench_config A.use_cuda_graph (kwargs.map (fun p => p.1)) c (M.outcome c)
        = .ok (tm c))
    (houtcome : ∀ c ∈ M.pruneFn A.configs, M.outcome c = .ok (tm c))
    (hwin : dictMin ((M.pruneFn A.configs).map (fun c => (c, tm c)))
        = some (w, wt))
    (hinf : timingIsInf A.use_cuda_graph wt = false)
    (hwpre : w.pre_hook = none)
    (hkernlen : ∀ (cf : Config) (as : List Arg), (M.kern cf as).length = as.length)
    (hkerndtype : ∀ (cf : Config) (as : List Arg) (i : Nat),
      ((M.kern cf as).get? i).map Arg.dtype = (as.get? i).map Arg.dtype)
    (hjr : j ∈ A.restore_idx) (hjnr : j ∉ A.reset_idx)
    (hrange : ∀ i ∈ A.restore_idx, i < args.length)
    (hj : args.get? j = some a0) :
    (A.run M args kwargs).argsBeforeDispatch.get? j = some a0 := by
  rw [run_eq_miss A M args kwargs key hlen hkey hmiss,
    run_miss_success A M key args kwargs tm w wt hok hwin hinf]
  obtain ⟨hstlen, hstj⟩ := bench_all_preserves A M (kwargs.map (fun p => p.1))
    j a0 args.length hkernlen hkerndtype hjr hjnr hrange
    (M.pruneFn A.configs) args [] hprehooks rfl hj
  have hand : (A.reset_idx.isEmpty && A.restore_idx.isEmpty) = false := by
    cases hempty : A.restore_idx with
    | nil =>
      rw [hempty] at hjr
      simp at hjr
    | cons x xs => simp
  have hph : ∀ X C : List Arg,
      (engine_pre_hook A.reset_idx A.restore_idx true X C).1
        = zero_at A.reset_idx X := by
    intro X C
    unfold engine_pre_hook
    rw [hand]
    rfl
  show (dispatch_args w _).get? j = some a0
  unfold dispatch_args
  rw [hwpre]
  rw [hph]
  rw [zero_at_get_not_mem A.reset_idx _ j hjnr]
  exact hstj

/-- C9 counterexample: an argument registered for both reset-to-zero and
restore (initial value 5) is zeroed by the trials' pre-hook, snapshotted as
zero, and re-zeroed by the final reset-only hook invocation: immediately
before the production dispatch its value is 0, not its value before the
first trial — so the claim fails for reset-registered arguments. -/
theorem C9_counterexample :
    let c1 : Config := ⟨[("BLOCK", 16)], 4, 1, 2, none⟩
    let c2 : Config := ⟨[("BLOCK", 32)], 8, 1, 2, none⟩
    let A : Autotuner := ⟨["acc", "n"], [c1, c2], [1], [0], [0], false, []⟩
    let M : KernelModel :=
      ⟨fun _ as => as, fun _ => .ok (.quart [.val 1, .val 1, .val 1]), 1,
       fun cs => cs⟩
    let args : List Arg := [⟨5, none⟩, ⟨3, none⟩]
    (A.run M args []).storeSaved = true ∧
    args.get? 0 = some ⟨5, none⟩ ∧
    (A.run M args []).argsBeforeDispatch.get? 0 = some ⟨0, none⟩ ∧
    (some (⟨0, none⟩ : Arg) ≠ some (⟨5, none⟩ : Arg)) := by
  intro c1 c2 A M args
  exact ⟨rfl, rfl, rfl, by decide⟩

/-- C9 witness: a restore-only argument keeps its initial value through a
two-candidate benchmarking pass. -/
theorem C9_witness :
    let c1 : Config := ⟨[("BLOCK", 16)], 4, 1, 2, none⟩
    let c2 : Config := ⟨[("BLOCK", 32)], 8, 1, 2, none⟩
    let A : Autotuner := ⟨["acc", "n"], [c1, c2], [1], [], [0], false, []⟩
    let M : KernelModel :=
      ⟨fun _ as => as, fun _ => .ok (.quart [.val 1, .val 1, .val 1]), 1,
       fun cs => cs⟩
    let args : List Arg := [⟨5, none⟩, ⟨3, none⟩]
    (A.run M args []).argsBeforeDispatch.get? 0 = some ⟨5, none⟩ := by
  intro c1 c2 A M args
  exact C9_restore_preserved A M args [] [KeyElem.v 3]
    (fun _ => .quart [.val 1, .val 1, .val 1]) c1
    (.quart [.val 1, .val 1, .val 1]) 0 ⟨5, none⟩
    (by decide) rfl rfl
    (by
      intro c hc
      have hc2 : c = c1 ∨ c = c2 := by simpa [M, A, c1, c2] using hc
      rcases hc2 with rfl | rfl <;> rfl)
    (by
      intro c hc
      simp [bench_config])
    (fun c _ => rfl)
    rfl rfl rfl
    (fun _ _ => rfl)
    (fun _ _ _ => rfl)
    (by decide) (by decide) (by decide)
    rfl
